import Mathlib

/-!
Verification of the genetic-algorithm route optimizer (`thinks5.py`).

The program optimizes the visiting order of `N` geocoded locations with a
genetic algorithm over permutations of location indices.  Global
configuration (`round_trip`, `N`, `start_index`, `end_index`, the distance
matrix) is passed here as explicit parameters.  Every random draw of the
program (`random.shuffle`, `random.sample`, `random.random`, `random.randint`)
is modelled as an explicit oracle argument; theorems quantify over the
oracle, constrained only by the range guarantees of the corresponding
Python primitive.  Python `float` distances are modelled as rationals.
Chromosomes are `List ℕ`; the `None` placeholders that `crossover` writes
into its child buffer are modelled as `Option ℕ` entries.
-/

/-- `POP_SIZE = 60` from the constants block of the program. -/
def POP_SIZE : ℕ := 60

/-- `GENERATIONS = 200` from the constants block of the program. -/
def GENERATIONS : ℕ := 200

/-- `MUTATION_RATE = 0.03` from the constants block of the program.  The
per-position Bernoulli draws `random.random() < MUTATION_RATE` are modelled
by the mutation oracle, so this constant is recorded but not consumed. -/
def MUTATION_RATE : ℚ := 3 / 100

/-- `SELECT_SAMPLE = 5` from the constants block of the program. -/
def SELECT_SAMPLE : ℕ := 5

/-- `route_distance(route)`: sum of `distance_matrix[route[i]][route[i+1]]`
for `i in range(len(route) - 1)`, accumulated left to right from `0`.
The matrix is the read-only global `distance_matrix`, passed explicitly. -/
def route_distance (dm : ℕ → ℕ → ℚ) (route : List ℕ) : ℚ :=
  (List.range (route.length - 1)).foldl
    (fun total i => total + dm (route.getD i 0) (route.getD (i + 1) 0)) 0

/-- The interior of a chromosome: everything strictly between the two
endpoint positions (`route[1:-1]` in Python). -/
def midOf (c : List ℕ) : List ℕ :=
  (c.drop 1).dropLast

/-- The set (as a reference list) of interior indices a feasible chromosome
must visit: all indices except the start, and for open paths also except
the end.  `List.erase` mirrors Python's `list.remove` on duplicate-free
lists. -/
def interiorPool (rt : Bool) (n s e : ℕ) : List ℕ :=
  if rt then (List.range n).erase s else ((List.range n).erase s).erase e

/-- Data-model feasibility of a chromosome for mode `rt` (`round_trip`),
location count `n`, start index `s` and end index `e`: mode-dependent
length (`n` open path, `n+1` round trip), start index first, mode-correct
last element, and an interior that is a permutation of all non-endpoint
indices. -/
def feasible (rt : Bool) (n s e : ℕ) (c : List ℕ) : Prop :=
  c.length = (if rt then n + 1 else n) ∧
  c.head? = some s ∧
  c.getLast? = some (if rt then s else e) ∧
  (midOf c).Perm (interiorPool rt n s e)

instance feasibleDecidable (rt : Bool) (n s e : ℕ) (c : List ℕ) :
    Decidable (feasible rt n s e c) := by
  unfold feasible
  infer_instance

/-- `create_route()`: start from `list(range(N))`, `remove` the start index
(and the end index when not a round trip), shuffle, then pin the endpoints.
The `random.shuffle` call is modelled by the oracle `shuffle`, which
theorems constrain to return a permutation of its argument. -/
def create_route (rt : Bool) (n s e : ℕ) (shuffle : List ℕ → List ℕ) : List ℕ :=
  let route0 := (List.range n).erase s
  let route1 := if rt then route0 else route0.erase e
  let route2 := shuffle route1
  if rt then s :: route2 ++ [s] else s :: route2 ++ [e]

/-- Python's `min(l, key=f)` for nonempty `l`: the first element attaining
the minimal key.  Returns `none` on `[]` (where Python raises). -/
def pyMin (f : α → ℚ) : List α → Option α
  | [] => none
  | x :: xs => some (xs.foldl (fun b y => if f y < f b then y else b) x)

/-- `osrm_distance(c1, c2)`: the whole `try` body — the HTTP request,
`raise_for_status`, and the JSON field accesses — is modelled as one
fallible lookup whose success value is the OSRM route distance in metres.
On success the function returns that distance divided by 1000; the bare
`except` maps every failure to the sentinel `999999`. -/
def osrm_distance (lookup : Except Unit ℚ) : ℚ :=
  match lookup with
  | .ok d => d / 1000
  | .error _ => 999999

/-- The distance-matrix construction loop: an `N × N` table whose diagonal
entries stay `0` and whose off-diagonal entry `(i, j)` is
`osrm_distance(city_list[i][1], city_list[j][1])`. -/
def build_matrix (n : ℕ) (lookup : ℕ → ℕ → Except Unit ℚ) : List (List ℚ) :=
  (List.range n).map fun i =>
    (List.range n).map fun j =>
      if i = j then 0 else osrm_distance (lookup i j)

/-- Python's parallel assignment `route[i], route[j] = route[j], route[i]`:
both right-hand sides are read before either position is written. -/
def listSwap [Inhabited α] (l : List α) (i j : ℕ) : List α :=
  let a := l.getD i default
  let b := l.getD j default
  (l.set i b).set j a

/-- The body of `mutate`'s `for i in range(1, N - lock_last)` loop, with the
iteration count as fuel.  `dec i = some j` models the event that
`random.random() < MUTATION_RATE` fired at position `i` and
`random.randint(1, N - lock_last - 1)` returned `j`; `dec i = none` models
the probability check failing. -/
def mutateLoop [Inhabited α] (dec : ℕ → Option ℕ) : ℕ → ℕ → List α → List α
  | 0, _, r => r
  | fuel + 1, i, r =>
    match dec i with
    | some j => mutateLoop dec fuel (i + 1) (listSwap r i j)
    | none => mutateLoop dec fuel (i + 1) r

/-- `mutate(route)`: `lock_last = 0 if round_trip else 1`, then for each
`i in range(1, N - lock_last)` possibly swap position `i` with a random
position `j in [1, N - lock_last - 1]`.  The mutated (in-place in Python)
list is returned. -/
def mutate [Inhabited α] (rt : Bool) (n : ℕ) (dec : ℕ → Option ℕ)
    (route : List α) : List α :=
  let lockLast : ℕ := if rt then 0 else 1
  mutateLoop dec (n - lockLast - 1) 1 route

/-- Python slice assignment `child[s : s + xs.length] = xs` (the two sides
always have equal length at `crossover`'s call site, so the buffer length
is unchanged there). -/
def setSlice (l : List (Option ℕ)) (s : ℕ) (xs : List (Option ℕ)) :
    List (Option ℕ) :=
  l.take s ++ xs ++ l.drop (s + xs.length)

/-- The body of `crossover`'s `for i in range(1, N-1)` repair loop, with
the iteration count as fuel: a position still holding the `None`
placeholder is filled from the head of `fill` when `fill` is nonempty. -/
def fillLoop : ℕ → ℕ → List (Option ℕ) → List ℕ → List (Option ℕ)
  | 0, _, child, _ => child
  | fuel + 1, i, child, fill =>
    match child.getD i none, fill with
    | none, f :: fs => fillLoop fuel (i + 1) (child.set i (some f)) fs
    | _, _ => fillLoop fuel (i + 1) child fill

/-- `crossover(p1, p2)`: a fixed `[None] * N` buffer gets the pinned
endpoints, the prefix `mid1[:end-start]` of parent 1's interior is written
into positions `start..end-1` (after `end` is clamped to
`start + min(len(mid1), N-2)`), and the repair loop fills remaining
placeholders from parent 2's interior values not already present.
`cs < ce` are the two sorted distinct draws of
`random.sample(range(1, N-1), 2)`, passed as oracle values. -/
def crossover (rt : Bool) (n s e : ℕ) (p1 p2 : List ℕ) (cs ce : ℕ) :
    List (Option ℕ) :=
  let child0 := ((List.replicate n (none : Option ℕ)).set 0 (some s)).set
    (n - 1) (some (if rt then s else e))
  let mid1 := midOf p1
  let mid2 := midOf p2
  let sliceLen := min mid1.length (n - 2)
  let ce2 := min ce (cs + sliceLen)
  let child1 := setSlice child0 cs ((mid1.take (ce2 - cs)).map some)
  let fill := mid2.filter fun x => !(child1.contains (some x))
  fillLoop (n - 2) 1 child1 fill

/-- Reading the crossover child buffer back as a plain index list, as the
rest of `run_ga` does: whenever the repair loop has filled every
placeholder (which holds for all populations the program generates), the
buffer is exactly `List.map some` of this list. -/
def deOpt (c : List (Option ℕ)) : List ℕ :=
  c.map fun o => o.getD 0

/-- All random draws `run_ga` consumes, indexed by generation and child
slot: `shuffle k` is the `random.shuffle` used for the `k`-th initial
chromosome; `samp g k b` gives the population positions drawn by
`random.sample(pop, SELECT_SAMPLE)` for the first (`b = false`) and second
(`b = true`) parent of child `k` in generation `g`; `cut g k` gives the
sorted crossover cut pair; `mdec g k` gives the mutation decisions. -/
structure GAOracle where
  shuffle : ℕ → List ℕ → List ℕ
  samp : ℕ → ℕ → Bool → List ℕ
  cut : ℕ → ℕ → ℕ × ℕ
  mdec : ℕ → ℕ → ℕ → Option ℕ

/-- `select(pop)`: tournament selection — the fittest member of the sample
`random.sample(pop, SELECT_SAMPLE)`, the sample being given by its drawn
population positions. -/
def select (dm : ℕ → ℕ → ℚ) (pop : List (List ℕ)) (idxs : List ℕ) :
    List ℕ :=
  (pyMin (route_distance dm) (idxs.map fun k => pop.getD k [])).getD []

/-- One child of the inner loop of `run_ga`:
`c = crossover(select(pop), select(pop)); mutate(c)`. -/
def mkChild (dm : ℕ → ℕ → ℚ) (rt : Bool) (n s e : ℕ) (o : GAOracle)
    (g k : ℕ) (pop : List (List ℕ)) : List ℕ :=
  let p1 := select dm pop (o.samp g k false)
  let p2 := select dm pop (o.samp g k true)
  let c := deOpt (crossover rt n s e p1 p2 (o.cut g k).1 (o.cut g k).2)
  mutate rt n (o.mdec g k) c

/-- The new population of one generation: `POP_SIZE` children appended in
order. -/
def stepGen (dm : ℕ → ℕ → ℚ) (rt : Bool) (n s e : ℕ) (o : GAOracle)
    (g : ℕ) (pop : List (List ℕ)) : List (List ℕ) :=
  (List.range POP_SIZE).map fun k => mkChild dm rt n s e o g k pop

/-- One iteration of `run_ga`'s generational loop on the state
`(pop, best)`: replace the population wholesale, take its fittest member
`cb`, and update `best` only on strict improvement. -/
def oneGen (dm : ℕ → ℕ → ℚ) (rt : Bool) (n s e : ℕ) (o : GAOracle)
    (g : ℕ) (st : List (List ℕ) × List ℕ) : List (List ℕ) × List ℕ :=
  let pop2 := stepGen dm rt n s e o g st.1
  let cb := (pyMin (route_distance dm) pop2).getD []
  (pop2, if route_distance dm cb < route_distance dm st.2 then cb else st.2)

/-- `pop = [create_route() for _ in range(POP_SIZE)]`. -/
def initPop (rt : Bool) (n s e : ℕ) (o : GAOracle) : List (List ℕ) :=
  (List.range POP_SIZE).map fun k => create_route rt n s e (o.shuffle k)

/-- The `(population, best-so-far)` state of `run_ga` after `g` completed
generations; generation `0` is the freshly initialized state with
`best = min(pop, key=route_distance)`. -/
def stateAfter (dm : ℕ → ℕ → ℚ) (rt : Bool) (n s e : ℕ) (o : GAOracle) :
    ℕ → List (List ℕ) × List ℕ
  | 0 =>
    (initPop rt n s e o,
      (pyMin (route_distance dm) (initPop rt n s e o)).getD [])
  | g + 1 => oneGen dm rt n s e o g (stateAfter dm rt n s e o g)

/-- `run_ga`'s `for _ in range(GENERATIONS)` loop, with the remaining
iteration count as fuel and the current generation index threaded for the
oracle. -/
def gaLoop (dm : ℕ → ℕ → ℚ) (rt : Bool) (n s e : ℕ) (o : GAOracle) :
    ℕ → ℕ → List (List ℕ) × List ℕ → List (List ℕ) × List ℕ
  | 0, _, st => st
  | fuel + 1, g, st => gaLoop dm rt n s e o fuel (g + 1) (oneGen dm rt n s e o g st)

/-- `run_ga()`: initialize the population, seed best-so-far with its
fittest member, run the generational loop `GENERATIONS` times, and return
best-so-far. -/
def run_ga (dm : ℕ → ℕ → ℚ) (rt : Bool) (n s e : ℕ) (o : GAOracle) :
    List ℕ :=
  let pop0 := initPop rt n s e o
  let best0 := (pyMin (route_distance dm) pop0).getD []
  (gaLoop dm rt n s e o GENERATIONS 0 (pop0, best0)).2

theorem foldl_add_range (f : ℕ → ℚ) (c : ℚ) (n : ℕ) :
    (List.range n).foldl (fun total i => total + f i) c =
      c + ∑ i ∈ Finset.range n, f i := by
  induction n generalizing c with
  | zero => simp
  | succ m ih =>
    rw [List.range_succ, List.foldl_append, ih, Finset.sum_range_succ]
    simp [add_assoc]

/-- C7: `route_distance` equals the sum of `matrix[route[i]][route[i+1]]`
over all consecutive position pairs of the route, and, being a pure
function of the route and the matrix, returns the same value on repeated
calls. -/
theorem route_distance_consecutive_sum (dm : ℕ → ℕ → ℚ) (route : List ℕ) :
    route_distance dm route =
      ∑ i ∈ Finset.range (route.length - 1),
        dm (route.getD i 0) (route.getD (i + 1) 0) ∧
    route_distance dm route = route_distance dm route := by
  refine ⟨?_, rfl⟩
  unfold route_distance
  rw [foldl_add_range]
  simp

/-- C9: the fallible OSRM lookup never escapes `osrm_distance`: the result
is the looked-up cost divided by 1000 on success and the sentinel `999999`
on any failure, so every off-diagonal entry of the built distance matrix
is one of those two. -/
theorem osrm_distance_sentinel (n : ℕ) (lookup : ℕ → ℕ → Except Unit ℚ)
    (i j : ℕ) (hi : i < n) (hj : j < n) (hij : i ≠ j) :
    ((build_matrix n lookup).getD i []).getD j 0 =
      osrm_distance (lookup i j) ∧
    ((∃ d, lookup i j = .ok d ∧ osrm_distance (lookup i j) = d / 1000) ∨
      osrm_distance (lookup i j) = 999999) := by
  constructor
  · have h1 : (build_matrix n lookup)[i]? =
        some ((List.range n).map fun k =>
          if i = k then 0 else osrm_distance (lookup i k)) := by
      simp [build_matrix, List.getElem?_map, List.getElem?_range, hi]
    simp only [List.getD_eq_getElem?_getD]
    rw [h1]
    simp [List.getElem?_map, List.getElem?_range, hj, hij]
  · cases hl : lookup i j with
    | ok d => exact Or.inl ⟨d, rfl, rfl⟩
    | error u => exact Or.inr rfl

theorem fillLoop_length (fuel : ℕ) :
    ∀ (i : ℕ) (child : List (Option ℕ)) (fill : List ℕ),
      (fillLoop fuel i child fill).length = child.length := by
  induction fuel with
  | zero => intro i child fill; rfl
  | succ m ih =>
    intro i child fill
    have hstep : fillLoop (m + 1) i child fill =
        match child.getD i none, fill with
        | none, f :: fs => fillLoop m (i + 1) (child.set i (some f)) fs
        | _, _ => fillLoop m (i + 1) child fill := rfl
    rw [hstep]
    rcases child.getD i none with _ | v <;> rcases fill with _ | ⟨f, fs⟩ <;>
      simp [ih, List.length_set]

theorem setSlice_length (l : List (Option ℕ)) (s : ℕ) (xs : List (Option ℕ))
    (hs : s + xs.length ≤ l.length) :
    (setSlice l s xs).length = l.length := by
  simp only [setSlice, List.length_append, List.length_take, List.length_drop]
  omega

/-- C2: `crossover` builds its child in a fixed `[None] * N` buffer in both
modes, so for valid cut draws the returned child always has length `N`;
in round-trip mode every feasible chromosome has length `N + 1`, one more
than the child. -/
theorem crossover_child_length_fixed (rt : Bool) (n s e : ℕ)
    (p1 p2 : List ℕ) (cs ce : ℕ) (h1 : 1 ≤ cs) (h2 : cs < ce)
    (h3 : ce ≤ n - 2) :
    (crossover rt n s e p1 p2 cs ce).length = n ∧
    (rt = true → ∀ c, feasible rt n s e c →
      c.length = (crossover rt n s e p1 p2 cs ce).length + 1) := by
  have hmain : (crossover rt n s e p1 p2 cs ce).length = n := by
    simp only [crossover]
    rw [fillLoop_length, setSlice_length]
    · simp
    · simp only [List.length_map, List.length_take, List.length_set,
        List.length_replicate]
      omega
  refine ⟨hmain, fun hrt c hc => ?_⟩
  rw [hmain]
  rcases hc with ⟨hlen, -, -, -⟩
  rw [hlen, hrt]
  simp

theorem crossover_child_length_fixed_witness :
    ((1 : ℕ) ≤ 1 ∧ 1 < 2 ∧ 2 ≤ 4 - 2) ∧
    ((crossover true 4 0 0 [0, 1, 2, 3, 0] [0, 3, 2, 1, 0] 1 2).length = 4 ∧
      (true = true → ∀ c, feasible true 4 0 0 c →
        c.length =
          (crossover true 4 0 0 [0, 1, 2, 3, 0] [0, 3, 2, 1, 0] 1 2).length
            + 1)) :=
  ⟨by decide,
    crossover_child_length_fixed true 4 0 0 [0, 1, 2, 3, 0] [0, 3, 2, 1, 0]
      1 2 (by decide) (by decide) (by decide)⟩

theorem getD_set_ne (l : List (Option ℕ)) (i p : ℕ) (x : Option ℕ)
    (h : i ≠ p) : (l.set i x).getD p none = l.getD p none := by
  simp [List.getD_eq_getElem?_getD, List.getElem?_set_ne h]

theorem fillLoop_preserves_filled (fuel : ℕ) :
    ∀ (i p : ℕ) (child : List (Option ℕ)) (fill : List ℕ) (v : ℕ),
      child.getD p none = some v →
      (fillLoop fuel i child fill).getD p none = some v := by
  induction fuel with
  | zero => intro i p child fill v h; exact h
  | succ m ih =>
    intro i p child fill v h
    have hstep : fillLoop (m + 1) i child fill =
        match child.getD i none, fill with
        | none, f :: fs => fillLoop m (i + 1) (child.set i (some f)) fs
        | _, _ => fillLoop m (i + 1) child fill := rfl
    rw [hstep]
    rcases hgd : child.getD i none with _ | w <;> rcases fill with _ | ⟨f, fs⟩
    · exact ih _ _ _ _ _ h
    · refine ih _ _ _ _ _ ?_
      have hip : i ≠ p := by
        intro hc
        rw [hc, h] at hgd
        exact Option.noConfusion hgd
      rw [getD_set_ne _ _ _ _ hip]
      exact h
    · exact ih _ _ _ _ _ h
    · exact ih _ _ _ _ _ h

theorem setSlice_getD_inside (l : List (Option ℕ)) (s : ℕ)
    (xs : List (Option ℕ)) (k : ℕ) (hs : s ≤ l.length) (hk : k < xs.length) :
    (setSlice l s xs).getD (s + k) none = xs.getD k none := by
  have hts : (l.take s).length = s := by
    simp only [List.length_take]
    omega
  simp only [setSlice, List.getD_eq_getElem?_getD]
  rw [List.getElem?_append_left (by simp only [List.length_append, hts]; omega),
    List.getElem?_append_right (by rw [hts]; omega)]
  congr 2
  simp only [List.length_take]
  omega

theorem listSwap_length [Inhabited α] (l : List α) (i j : ℕ) :
    (listSwap l i j).length = l.length := by
  simp [listSwap]

theorem listSwap_perm (l : List ℕ) (i j : ℕ) (hi : i < l.length)
    (hj : j < l.length) : (listSwap l i j).Perm l := by
  rw [List.perm_iff_count]
  intro x
  have hj2 : j < (l.set i (l.getD j default)).length := by
    simpa using hj
  simp only [listSwap]
  rw [List.count_set (l.getD i default) x (l.set i (l.getD j default)) j hj2,
    List.count_set (l.getD j default) x l i hi]
  have hgi : l.getD i default = l[i] := List.getD_eq_getElem l default hi
  have hgj : l.getD j default = l[j] := List.getD_eq_getElem l default hj
  have hset : (l.set i (l.getD j default))[j] = l.getD j default := by
    rw [List.getElem_set hj2]
    rcases eq_or_ne i j with hij | hij
    · rw [if_pos hij]
    · rw [if_neg hij]
      exact hgj.symm
  rw [hset, hgi, hgj]
  have hcount : l[i] = x → 1 ≤ l.count x := fun hx =>
    List.one_le_count_iff.mpr (hx ▸ List.getElem_mem hi)
  simp only [beq_iff_eq]
  split_ifs <;> simp_all

theorem mutateLoop_length [Inhabited α] (dec : ℕ → Option ℕ) (fuel : ℕ) :
    ∀ (i : ℕ) (r : List α), (mutateLoop dec fuel i r).length = r.length := by
  induction fuel with
  | zero => intro i r; rfl
  | succ m ih =>
    intro i r
    have hstep : mutateLoop dec (m + 1) i r =
        match dec i with
        | some j => mutateLoop dec m (i + 1) (listSwap r i j)
        | none => mutateLoop dec m (i + 1) r := rfl
    rw [hstep]
    rcases dec i with _ | j
    · exact ih (i + 1) r
    · rw [ih (i + 1) (listSwap r i j), listSwap_length]

theorem mutateLoop_perm (dec : ℕ → Option ℕ) (fuel : ℕ) :
    ∀ (i : ℕ) (r : List ℕ),
      (∀ k, i ≤ k → k < i + fuel → k < r.length) →
      (∀ k j, i ≤ k → k < i + fuel → dec k = some j → j < r.length) →
      (mutateLoop dec fuel i r).Perm r := by
  induction fuel with
  | zero => intro i r _ _; exact List.Perm.refl r
  | succ m ih =>
    intro i r hk hkj
    have hstep : mutateLoop dec (m + 1) i r =
        match dec i with
        | some j => mutateLoop dec m (i + 1) (listSwap r i j)
        | none => mutateLoop dec m (i + 1) r := rfl
    rw [hstep]
    rcases hd : dec i with _ | j
    · exact ih (i + 1) r (fun k h1 h2 => hk k (by omega) (by omega))
        (fun k j h1 h2 h3 => hkj k j (by omega) (by omega) h3)
    · have hi : i < r.length := hk i (by omega) (by omega)
      have hjr : j < r.length := hkj i j (by omega) (by omega) hd
      have hswap : (listSwap r i j).Perm r := listSwap_perm r i j hi hjr
      have hlen : (listSwap r i j).length = r.length := listSwap_length r i j
      exact (ih (i + 1) (listSwap r i j)
        (fun k h1 h2 => by rw [hlen]; exact hk k (by omega) (by omega))
        (fun k j2 h1 h2 h3 => by
          rw [hlen]; exact hkj k j2 (by omega) (by omega) h3)).trans hswap

/-- C10: `mutate` only ever exchanges two positions' values, so on any
input list long enough to contain every position the loop may touch it
returns (in place, in Python; modelled as the returned list) a list with
exactly the same multiset of values, feasible chromosome or not. -/
theorem mutate_preserves_multiset (rt : Bool) (n : ℕ) (dec : ℕ → Option ℕ)
    (route : List ℕ) (hlen : n ≤ route.length)
    (hdec : ∀ i j, dec i = some j →
      1 ≤ j ∧ j ≤ n - (if rt then 0 else 1) - 1) :
    (↑(mutate rt n dec route) : Multiset ℕ) = (↑route : Multiset ℕ) := by
  rw [Multiset.coe_eq_coe]
  unfold mutate
  apply mutateLoop_perm
  · intro k h1 h2
    rcases rt with _ | _ <;> simp only [Bool.false_eq_true, if_true, if_false,
      reduceIte] at h2 ⊢ <;> omega
  · intro k j h1 h2 h3
    have := hdec k j h3
    rcases rt with _ | _ <;> simp only [Bool.false_eq_true, if_true, if_false,
      reduceIte] at h2 this ⊢ <;> omega

theorem mutate_preserves_multiset_witness :
    4 ≤ ([7, 7, 8, 9] : List ℕ).length ∧
    (↑(mutate false 4 (fun i => if i = 1 then some 2 else none) [7, 7, 8, 9]) :
        Multiset ℕ) = (↑([7, 7, 8, 9] : List ℕ) : Multiset ℕ) :=
  ⟨by decide,
    mutate_preserves_multiset false 4 (fun i => if i = 1 then some 2 else none)
      [7, 7, 8, 9] (by decide)
      (by
        intro i j h
        have h2 : (if i = 1 then some (2 : ℕ) else none) = some j := h
        rcases eq_or_ne i 1 with hi | hi
        · rw [if_pos hi] at h2
          cases h2
          decide
        · rw [if_neg hi] at h2
          cases h2)⟩

theorem mutateLoop_getElem?_outside [Inhabited α] (dec : ℕ → Option ℕ)
    (fuel : ℕ) :
    ∀ (i p : ℕ) (r : List α),
      (∀ k, i ≤ k → k < i + fuel → k ≠ p) →
      (∀ k j, i ≤ k → k < i + fuel → dec k = some j → j ≠ p) →
      (mutateLoop dec fuel i r)[p]? = r[p]? := by
  induction fuel with
  | zero => intro i p r _ _; rfl
  | succ m ih =>
    intro i p r hk hkj
    have hstep : mutateLoop dec (m + 1) i r =
        match dec i with
        | some j => mutateLoop dec m (i + 1) (listSwap r i j)
        | none => mutateLoop dec m (i + 1) r := rfl
    rw [hstep]
    rcases hd : dec i with _ | j
    · exact ih (i + 1) p r (fun k h1 h2 => hk k (by omega) (by omega))
        (fun k j h1 h2 h3 => hkj k j (by omega) (by omega) h3)
    · rw [ih (i + 1) p (listSwap r i j)
        (fun k h1 h2 => hk k (by omega) (by omega))
        (fun k j2 h1 h2 h3 => hkj k j2 (by omega) (by omega) h3)]
      have hip : i ≠ p := hk i (le_refl i) (by omega)
      have hjp : j ≠ p := hkj i j (le_refl i) (by omega) hd
      simp [listSwap, List.getElem?_set_ne hip, List.getElem?_set_ne hjp]

theorem midOf_length (c : List ℕ) : (midOf c).length = c.length - 1 - 1 := by
  simp [midOf]

theorem count_midOf (c : List ℕ) (h2 : 2 ≤ c.length) (x : ℕ) :
    c.count x = (if c.head? = some x then 1 else 0) + (midOf c).count x +
      (if c.getLast? = some x then 1 else 0) := by
  rcases c with _ | ⟨a, t⟩
  · simp at h2
  · have ht : t ≠ [] := by
      intro h
      subst h
      simp at h2
    have hdec2 : a :: t = a :: (t.dropLast ++ [t.getLast ht]) := by
      rw [List.dropLast_append_getLast ht]
    rw [hdec2]
    have hgl : (a :: (t.dropLast ++ [t.getLast ht])).getLast? =
        some (t.getLast ht) := by
      rw [← List.cons_append, List.getLast?_concat]
    rw [hgl]
    simp only [midOf, List.drop_succ_cons, List.drop_zero,
      List.dropLast_concat, List.count_cons, List.count_append,
      List.head?_cons, Option.some.injEq, beq_iff_eq]
    simp only [List.count_nil]
    split_ifs <;> omega

theorem midOf_perm_congr (c c2 : List ℕ) (hp : c2.Perm c)
    (hh : c2.head? = c.head?) (hl : c2.getLast? = c.getLast?)
    (h2 : 2 ≤ c.length) : (midOf c2).Perm (midOf c) := by
  have h22 : 2 ≤ c2.length := by
    rw [hp.length_eq]
    exact h2
  rw [List.perm_iff_count]
  intro x
  have e1 := count_midOf c h2 x
  have e2 := count_midOf c2 h22 x
  have e3 := (List.perm_iff_count.mp hp) x
  rw [hh, hl] at e2
  split_ifs at e1 e2 <;> omega

/-- C5: for any feasible chromosome of the configured mode, `mutate`
returns a feasible chromosome of the same mode and length whose first and
last positions hold the same values as the input's: every position the
swap loop reads or writes lies strictly inside the interior. -/
theorem mutate_preserves_feasibility (rt : Bool) (n s e : ℕ)
    (dec : ℕ → Option ℕ) (c : List ℕ) (hc : feasible rt n s e c)
    (hdec : ∀ i j, dec i = some j →
      1 ≤ j ∧ j ≤ n - (if rt then 0 else 1) - 1) :
    feasible rt n s e (mutate rt n dec c) ∧
    (mutate rt n dec c).head? = c.head? ∧
    (mutate rt n dec c).getLast? = c.getLast? := by
  obtain ⟨hlen, hhead, hlast, hmid⟩ := hc
  have hnle : n ≤ c.length := by
    rcases rt with _ | _ <;> simp only [Bool.false_eq_true, reduceIte] at hlen
      <;> omega
  have hperm : (mutate rt n dec c).Perm c := by
    have hms := mutate_preserves_multiset rt n dec c hnle hdec
    rwa [Multiset.coe_eq_coe] at hms
  have hlen2 : (mutate rt n dec c).length = c.length := hperm.length_eq
  have hhead2 : (mutate rt n dec c).head? = c.head? := by
    rw [List.head?_eq_getElem?, List.head?_eq_getElem?]
    simp only [mutate]
    apply mutateLoop_getElem?_outside
    · intro k h1 h2
      omega
    · intro k j h1 h2 h3
      have hj1 := (hdec k j h3).1
      omega
  have hlast2 : (mutate rt n dec c).getLast? = c.getLast? := by
    rw [List.getLast?_eq_getElem?, List.getLast?_eq_getElem?, hlen2]
    simp only [mutate]
    apply mutateLoop_getElem?_outside
    · intro k h1 h2
      rcases rt with _ | _ <;>
        simp only [Bool.false_eq_true, reduceIte] at hlen h2 ⊢ <;> omega
    · intro k j h1 h2 h3
      have hj2 := hdec k j h3
      rcases rt with _ | _ <;>
        simp only [Bool.false_eq_true, reduceIte] at hlen h2 hj2 ⊢ <;> omega
  refine ⟨⟨by rw [hlen2, hlen], by rw [hhead2, hhead], by rw [hlast2, hlast],
    ?_⟩, hhead2, hlast2⟩
  by_cases hc2 : 2 ≤ c.length
  · exact (midOf_perm_congr c (mutate rt n dec c) hperm hhead2 hlast2
      hc2).trans hmid
  · have hm1 : midOf (mutate rt n dec c) = [] := by
      apply List.eq_nil_of_length_eq_zero
      rw [midOf_length, hlen2]
      omega
    have hm2 : midOf c = [] := by
      apply List.eq_nil_of_length_eq_zero
      rw [midOf_length]
      omega
    rw [hm1]
    rw [hm2] at hmid
    exact hmid

theorem mutate_preserves_feasibility_witness :
    feasible false 4 0 3 [0, 1, 2, 3] ∧
    (feasible false 4 0 3
        (mutate false 4 (fun _ => none) [0, 1, 2, 3]) ∧
      (mutate false 4 (fun _ => none) [0, 1, 2, 3]).head? =
        ([0, 1, 2, 3] : List ℕ).head? ∧
      (mutate false 4 (fun _ => none) [0, 1, 2, 3]).getLast? =
        ([0, 1, 2, 3] : List ℕ).getLast?) :=
  ⟨by decide,
    mutate_preserves_feasibility false 4 0 3 (fun _ => none) [0, 1, 2, 3]
      (by decide) (fun i j h => Option.noConfusion h)⟩

/-- C6: every chromosome `create_route` returns is feasible: pinned start
first, mode-correct last element (end index for open path, start index
again for round trip), an interior that is a shuffle of exactly the
non-endpoint indices, and length `N` (open path) or `N + 1` (round trip). -/
theorem create_route_feasible (rt : Bool) (n s e : ℕ)
    (shuffle : List ℕ → List ℕ) (hshuf : ∀ l, (shuffle l).Perm l)
    (hs : s < n) (hopen : rt = false → e < n ∧ e ≠ s) :
    feasible rt n s e (create_route rt n s e shuffle) := by
  have hsr : s ∈ List.range n := List.mem_range.mpr hs
  have herase : ((List.range n).erase s).length = n - 1 := by
    rw [List.length_erase_of_mem hsr, List.length_range]
  rcases rt with _ | _
  · obtain ⟨he, hes⟩ := hopen rfl
    have her : e ∈ (List.range n).erase s :=
      (List.mem_erase_of_ne hes).mpr (List.mem_range.mpr he)
    have herase2 : (((List.range n).erase s).erase e).length = n - 2 := by
      rw [List.length_erase_of_mem her, herase]
      omega
    have hplen : (shuffle (((List.range n).erase s).erase e)).length = n - 2 := by
      rw [(hshuf _).length_eq, herase2]
    simp only [create_route, feasible, interiorPool, Bool.false_eq_true,
      reduceIte]
    refine ⟨?_, rfl, List.getLast?_concat _, ?_⟩
    · rw [List.cons_append, List.length_cons, List.length_append, hplen,
        List.length_singleton]
      omega
    · rw [List.cons_append]
      simp only [midOf, List.drop_succ_cons, List.drop_zero,
        List.dropLast_concat]
      exact hshuf _
  · have hplen : (shuffle ((List.range n).erase s)).length = n - 1 := by
      rw [(hshuf _).length_eq, herase]
    simp only [create_route, feasible, interiorPool, reduceIte]
    refine ⟨?_, rfl, List.getLast?_concat _, ?_⟩
    · rw [List.cons_append, List.length_cons, List.length_append, hplen,
        List.length_singleton]
      omega
    · rw [List.cons_append]
      simp only [midOf, List.drop_succ_cons, List.drop_zero,
        List.dropLast_concat]
      exact hshuf _

theorem create_route_feasible_witness :
    ((0 : ℕ) < 3 ∧ (false = false → (2 : ℕ) < 3 ∧ (2 : ℕ) ≠ 0)) ∧
    feasible false 3 0 2 (create_route false 3 0 2 id) :=
  ⟨by decide,
    create_route_feasible false 3 0 2 id (fun l => List.Perm.refl l)
      (by decide) (fun _ => by decide)⟩

theorem foldlMin_le (f : α → ℚ) (l : List α) :
    ∀ x : α,
      f (l.foldl (fun b y => if f y < f b then y else b) x) ≤ f x ∧
      ∀ y ∈ l, f (l.foldl (fun b y => if f y < f b then y else b) x) ≤ f y := by
  induction l with
  | nil =>
    intro x
    exact ⟨le_refl _, by simp⟩
  | cons z zs ih =>
    intro x
    constructor
    · simp only [List.foldl_cons]
      split_ifs with h
      · exact (ih z).1.trans (le_of_lt h)
      · exact (ih x).1
    · intro y hy
      simp only [List.foldl_cons]
      rcases List.mem_cons.mp hy with rfl | hy2
      · split_ifs with h
        · exact (ih y).1
        · exact (ih x).1.trans (not_lt.mp h)
      · split_ifs with h
        · exact (ih z).2 y hy2
        · exact (ih x).2 y hy2

theorem pyMin_le (f : α → ℚ) (l : List α) (d : α) (hne : l ≠ []) :
    ∀ y ∈ l, f ((pyMin f l).getD d) ≤ f y := by
  rcases l with _ | ⟨x, xs⟩
  · exact absurd rfl hne
  · intro y hy
    simp only [pyMin, Option.getD_some]
    rcases List.mem_cons.mp hy with rfl | hy2
    · exact (foldlMin_le f xs y).1
    · exact (foldlMin_le f xs x).2 y hy2

theorem oneGen_best_le (dm : ℕ → ℕ → ℚ) (rt : Bool) (n s e : ℕ)
    (o : GAOracle) (g : ℕ) (st : List (List ℕ) × List ℕ) :
    route_distance dm (oneGen dm rt n s e o g st).2 ≤
      route_distance dm st.2 := by
  simp only [oneGen]
  split_ifs with h
  · exact le_of_lt h
  · exact le_refl _

theorem gaLoop_stateAfter (dm : ℕ → ℕ → ℚ) (rt : Bool) (n s e : ℕ)
    (o : GAOracle) (fuel : ℕ) :
    ∀ g, gaLoop dm rt n s e o fuel g (stateAfter dm rt n s e o g) =
      stateAfter dm rt n s e o (g + fuel) := by
  induction fuel with
  | zero => intro g; rfl
  | succ m ih =>
    intro g
    have hstep : gaLoop dm rt n s e o (m + 1) g (stateAfter dm rt n s e o g) =
        gaLoop dm rt n s e o m (g + 1)
          (oneGen dm rt n s e o g (stateAfter dm rt n s e o g)) := rfl
    have hone : oneGen dm rt n s e o g (stateAfter dm rt n s e o g) =
        stateAfter dm rt n s e o (g + 1) := rfl
    rw [hstep, hone, ih (g + 1)]
    congr 1
    omega

theorem run_ga_eq_stateAfter (dm : ℕ → ℕ → ℚ) (rt : Bool) (n s e : ℕ)
    (o : GAOracle) :
    run_ga dm rt n s e o = (stateAfter dm rt n s e o GENERATIONS).2 := by
  have h := gaLoop_stateAfter dm rt n s e o GENERATIONS 0
  simp only [run_ga]
  rw [show (initPop rt n s e o,
      (pyMin (route_distance dm) (initPop rt n s e o)).getD []) =
      stateAfter dm rt n s e o 0 from rfl, h, Nat.zero_add]

theorem stateAfter_best_le_init (dm : ℕ → ℕ → ℚ) (rt : Bool) (n s e : ℕ)
    (o : GAOracle) (g : ℕ) :
    ∀ c ∈ initPop rt n s e o,
      route_distance dm (stateAfter dm rt n s e o g).2 ≤
        route_distance dm c := by
  induction g with
  | zero =>
    intro c hc
    have hne : initPop rt n s e o ≠ [] := by
      simp [initPop, POP_SIZE, List.range_eq_nil]
    exact pyMin_le (route_distance dm) (initPop rt n s e o) [] hne c hc
  | succ m ih =>
    intro c hc
    exact (oneGen_best_le dm rt n s e o m
      (stateAfter dm rt n s e o m)).trans (ih c hc)

/-- C4: the best-so-far fitness never worsens from one generation to the
next — for every generation `g` and every matrix, mode, and sequence of
random draws — and the chromosome `run_ga` returns is at least as fit as
every member of the initial population. -/
theorem run_ga_best_monotonic (dm : ℕ → ℕ → ℚ) (rt : Bool) (n s e : ℕ)
    (o : GAOracle) (g : ℕ) (c : List ℕ) (hc : c ∈ initPop rt n s e o) :
    route_distance dm (stateAfter dm rt n s e o (g + 1)).2 ≤
      route_distance dm (stateAfter dm rt n s e o g).2 ∧
    route_distance dm (run_ga dm rt n s e o) ≤ route_distance dm c := by
  refine ⟨?_, ?_⟩
  · exact oneGen_best_le dm rt n s e o g (stateAfter dm rt n s e o g)
  · rw [run_ga_eq_stateAfter]
    exact stateAfter_best_le_init dm rt n s e o GENERATIONS c hc

theorem run_ga_best_monotonic_witness :
    [0, 0] ∈ initPop true 0 0 0
        ⟨fun _ l => l, fun _ _ _ => [], fun _ _ => (0, 0), fun _ _ _ => none⟩ ∧
    (route_distance (fun _ _ => 0)
        (stateAfter (fun _ _ => 0) true 0 0 0
          ⟨fun _ l => l, fun _ _ _ => [], fun _ _ => (0, 0),
            fun _ _ _ => none⟩ (0 + 1)).2 ≤
      route_distance (fun _ _ => 0)
        (stateAfter (fun _ _ => 0) true 0 0 0
          ⟨fun _ l => l, fun _ _ _ => [], fun _ _ => (0, 0),
            fun _ _ _ => none⟩ 0).2 ∧
      route_distance (fun _ _ => 0)
        (run_ga (fun _ _ => 0) true 0 0 0
          ⟨fun _ l => l, fun _ _ _ => [], fun _ _ => (0, 0),
            fun _ _ _ => none⟩) ≤
        route_distance (fun _ _ => 0) [0, 0]) :=
  ⟨by decide,
    run_ga_best_monotonic (fun _ _ => 0) true 0 0 0
      ⟨fun _ l => l, fun _ _ _ => [], fun _ _ => (0, 0), fun _ _ _ => none⟩
      0 [0, 0] (by decide)⟩

/-- C8: `run_ga` runs its generational loop for exactly `GENERATIONS`
iterations — the constant 200 — and then returns the best-so-far
component of the resulting state: no distance value, population content,
or random draw changes the iteration count, since the equality holds for
every matrix, mode, configuration, and oracle. -/
theorem run_ga_exactly_generations (dm : ℕ → ℕ → ℚ) (rt : Bool)
    (n s e : ℕ) (o : GAOracle) :
    run_ga dm rt n s e o = (stateAfter dm rt n s e o GENERATIONS).2 ∧
    GENERATIONS = 200 :=
  ⟨run_ga_eq_stateAfter dm rt n s e o, rfl⟩

/-- C3 (counterexample): with open-path feasible parents `[0, 1, 2, 3, 4]`
and `[0, 3, 2, 1, 4]` for `N = 5` and the valid sorted cut draw `(2, 3)`,
the child's position `2` receives `1` — the first element of parent 1's
interior — not parent 1's value `2` at that same position, so the donor
segment is not the sub-segment of parent 1's interior between the cut
positions. -/
theorem crossover_donor_not_subsegment_cex :
    ((1 : ℕ) ≤ 2 ∧ 2 < 3 ∧ 3 ≤ 5 - 2) ∧
    feasible false 5 0 4 [0, 1, 2, 3, 4] ∧
    feasible false 5 0 4 [0, 3, 2, 1, 4] ∧
    (crossover false 5 0 4 [0, 1, 2, 3, 4] [0, 3, 2, 1, 4] 2 3).getD 2 none =
      some 1 ∧
    ([0, 1, 2, 3, 4] : List ℕ).getD 2 0 = 2 ∧
    (crossover false 5 0 4 [0, 1, 2, 3, 4] [0, 3, 2, 1, 4] 2 3).getD 2 none ≠
      some (([0, 1, 2, 3, 4] : List ℕ).getD 2 0) := by
  refine ⟨by decide, by decide, by decide, by decide, by decide, by decide⟩

/-- C3 (amended): for valid sorted cut draws `cs < ce`, the values the
donor step writes into child positions `cs .. ce2 - 1` (where
`ce2 = min ce (cs + min (len mid1) (N-2))` is the clamped upper cut) are
the first `ce2 - cs` elements of parent 1's interior — its prefix, clamped
so it never exceeds the available interior length — and they survive the
repair loop. -/
theorem crossover_donor_is_interior_prefix (rt : Bool) (n s e : ℕ)
    (p1 p2 : List ℕ) (cs ce : ℕ) (h1 : 1 ≤ cs) (h2 : cs < ce)
    (h3 : ce ≤ n - 2) (k : ℕ)
    (hk : k < min ce (cs + min (midOf p1).length (n - 2)) - cs) :
    (crossover rt n s e p1 p2 cs ce).getD (cs + k) none =
      some ((midOf p1).getD k 0) := by
  have hk1 : k < (midOf p1).length := by omega
  simp only [crossover]
  apply fillLoop_preserves_filled
  rw [setSlice_getD_inside]
  · simp only [List.getD_eq_getElem?_getD, List.getElem?_map,
      List.getElem?_take]
    rw [if_pos (by omega), List.getElem?_eq_getElem hk1]
    simp [List.getD_eq_getElem?_getD, List.getElem?_eq_getElem hk1]
  · simp only [List.length_set, List.length_replicate]
    omega
  · simp only [List.length_map, List.length_take]
    omega

theorem crossover_donor_is_interior_prefix_witness :
    ((1 : ℕ) ≤ 2 ∧ 2 < 3 ∧ 3 ≤ 5 - 2 ∧
      0 < min 3 (2 + min (midOf [0, 1, 2, 3, 4]).length (5 - 2)) - 2) ∧
    (crossover false 5 0 4 [0, 1, 2, 3, 4] [0, 3, 2, 1, 4] 2 3).getD (2 + 0)
        none =
      some ((midOf [0, 1, 2, 3, 4]).getD 0 0) :=
  ⟨by decide,
    crossover_donor_is_interior_prefix false 5 0 4 [0, 1, 2, 3, 4]
      [0, 3, 2, 1, 4] 2 3 (by decide) (by decide) (by decide) 0 (by decide)⟩

/-- C1: the claimed crossover closure fails in round-trip mode — the
reference defect.  With `N = 4` round-trip feasible parents
`[0, 1, 2, 3, 0]` and `[0, 3, 2, 1, 0]` and the only possible sorted cut
draw `(1, 2)` of `random.sample(range(1, 3), 2)`, the child is
`[0, 1, 3, 0]`: length `N = 4` instead of the feasible `N + 1 = 5`, with
interior index `2` omitted. -/
theorem crossover_roundtrip_child_infeasible :
    feasible true 4 0 0 [0, 1, 2, 3, 0] ∧
    feasible true 4 0 0 [0, 3, 2, 1, 0] ∧
    crossover true 4 0 0 [0, 1, 2, 3, 0] [0, 3, 2, 1, 0] 1 2 =
      [some 0, some 1, some 3, some 0] ∧
    (crossover true 4 0 0 [0, 1, 2, 3, 0] [0, 3, 2, 1, 0] 1 2).length ≠
      4 + 1 := by
  refine ⟨by decide, by decide, by decide, by decide⟩

theorem osrm_distance_sentinel_witness :
    ((0 : ℕ) < 2 ∧ (1 : ℕ) < 2 ∧ (0 : ℕ) ≠ 1) ∧
    (((build_matrix 2 fun _ _ => Except.error ()).getD 0 []).getD 1 0 =
        osrm_distance (Except.error ()) ∧
      ((∃ d, (Except.error () : Except Unit ℚ) = .ok d ∧
          osrm_distance (Except.error ()) = d / 1000) ∨
        osrm_distance (Except.error ()) = 999999)) :=
  ⟨by decide,
    osrm_distance_sentinel 2 (fun _ _ => .error ()) 0 1 (by decide)
      (by decide) (by decide)⟩
